import Mathlib

/-!
Shallow embedding of the `nextdb-storage` crate (LSM-tree storage engine):
memtable, block cache, SSTable builder/reader, write-ahead log and the
LSM orchestration layer, together with proofs about the embedded code.

Keys and values (`Vec<u8>` in the source) are modelled as `List Nat`;
`usize`/`u64` counters are `Nat`, with wrapping arithmetic made explicit
(`% 2^64`) where the source can underflow or overflow in release builds.
Fallible operations return `Except StorageError α`.  File contents are
carried inside the corresponding states as byte lists.
-/

namespace DistDB

/-- Byte strings (`Vec<u8>` in the source). -/
abbrev Bytes := List Nat

/-- Strict lexicographic order on byte strings: the `Ord` instance of
`Vec<u8>` used by `BTreeMap` in the source. -/
def keyLt : Bytes → Bytes → Bool
  | [], [] => false
  | [], _ :: _ => true
  | _ :: _, [] => false
  | a :: as, b :: bs => if a < b then true else if b < a then false else keyLt as bs

/-- Non-strict lexicographic order on byte strings (used by the
`range(..=key)` predecessor search over a `BTreeMap`). -/
def keyLe (a b : Bytes) : Bool := keyLt a b || a == b

theorem keyLt_irrefl (a : Bytes) : keyLt a a = false := by
  induction a with
  | nil => rfl
  | cons x xs ih => simp [keyLt, ih]

theorem keyLt_ne {a b : Bytes} (h : keyLt a b = true) : a ≠ b := by
  intro he; subst he; rw [keyLt_irrefl] at h; exact Bool.noConfusion h

theorem keyLt_cons_elim {x y : Nat} {xs ys : Bytes}
    (h : keyLt (x :: xs) (y :: ys) = true) :
    x < y ∨ (x = y ∧ keyLt xs ys = true) := by
  rw [keyLt] at h
  by_cases h1 : x < y
  · exact Or.inl h1
  · rw [if_neg h1] at h
    by_cases h2 : y < x
    · rw [if_pos h2] at h; exact absurd h (by simp)
    · rw [if_neg h2] at h; exact Or.inr ⟨by omega, h⟩

theorem keyLt_trans {a : Bytes} : ∀ {b c : Bytes}, keyLt a b = true → keyLt b c = true →
    keyLt a c = true := by
  induction a with
  | nil =>
    intro b c hab hbc
    cases c with
    | nil =>
      cases b with
      | nil => simp [keyLt] at hab
      | cons y ys => simp [keyLt] at hbc
    | cons z zs => simp [keyLt]
  | cons x xs ih =>
    intro b c hab hbc
    cases b with
    | nil => simp [keyLt] at hab
    | cons y ys =>
      cases c with
      | nil => simp [keyLt] at hbc
      | cons z zs =>
        rcases keyLt_cons_elim hab with h | ⟨he, hk⟩ <;>
          rcases keyLt_cons_elim hbc with h' | ⟨he', hk'⟩ <;>
          rw [keyLt]
        · rw [if_pos (show x < z by omega)]
        · rw [if_pos (show x < z by omega)]
        · rw [if_pos (show x < z by omega)]
        · rw [if_neg (show ¬ x < z by omega), if_neg (show ¬ z < x by omega)]
          exact ih hk hk'

theorem keyLt_total : ∀ (a b : Bytes), keyLt a b = true ∨ a = b ∨ keyLt b a = true := by
  intro a
  induction a with
  | nil =>
    intro b
    cases b with
    | nil => exact Or.inr (Or.inl rfl)
    | cons y ys => exact Or.inl (by simp [keyLt])
  | cons x xs ih =>
    intro b
    cases b with
    | nil => exact Or.inr (Or.inr (by simp [keyLt]))
    | cons y ys =>
      by_cases hxy : x < y
      · exact Or.inl (by rw [keyLt, if_pos hxy])
      · by_cases hyx : y < x
        · exact Or.inr (Or.inr (by rw [keyLt, if_pos hyx]))
        · have hxy' : x = y := by omega
          subst hxy'
          rcases ih ys with h | h | h
          · exact Or.inl (by rw [keyLt, if_neg hxy, if_neg hyx]; exact h)
          · exact Or.inr (Or.inl (by rw [h]))
          · exact Or.inr (Or.inr (by rw [keyLt, if_neg hxy, if_neg hyx]; exact h))

/-- `CompressionType` from `src/crates/storage/src/compression.rs`. -/
inductive CompressionType
  | none
  | lz4
  | zstd
deriving DecidableEq, Repr

/-- `StorageError` from `src/crates/storage/src/error.rs` (payloads carry
the formatted message where one is produced by the code under scrutiny). -/
inductive StorageError
  | io (msg : String)
  | serde (msg : String)
  | keyNotFound (key : Bytes)
  | corruption (msg : String)
  | compression (msg : String)
  | wal (msg : String)
  | compaction (msg : String)
  | config (msg : String)
  | internal (msg : String)
deriving DecidableEq, Repr

/-! ### Compression model

`compress`/`decompress` in `src/crates/storage/src/compression.rs` dispatch
on the kind: `None` is the identity (direct from the source); `LZ4` and
`Zstd` call the third-party `lz4_flex` and `zstd` crates, which are not
part of this repository. -/

/-- Length of the run of `b` at the head of `l`. -/
def countRun (b : Nat) (l : List Nat) : Nat :=
  match l with
  | [] => 0
  | x :: xs => if x = b then countRun b xs + 1 else 0

/-- Modelled from the spec: the body of the byte-oriented compression
scheme (`lz4_flex` / `zstd`, third-party crates absent from `src/`),
modelled as an invertible run-length code emitting `(count, byte)` pairs
with `1 ≤ count ≤ 255`.  Only the boundary properties the spec states
(lossless round-trip; size reduction on highly repetitive input) are
relied upon. -/
def rleEncode (l : List Nat) : List Nat :=
  match l with
  | [] => []
  | b :: t =>
    let m := min 254 (countRun b t)
    (m + 1) :: b :: rleEncode (t.drop m)
termination_by l.length
decreasing_by
  simp only [List.length_cons, List.length_drop]
  omega

/-- Modelled from the spec: inverse of `rleEncode`. -/
def rleDecode (l : List Nat) : Except StorageError (List Nat) :=
  match l with
  | [] => .ok []
  | c :: b :: t =>
    if c = 0 then .error (.compression "invalid run length")
    else
      match rleDecode t with
      | .ok out => .ok (List.replicate c b ++ out)
      | .error e => .error e
  | [_] => .error (.compression "truncated run-length stream")

/-- 32-bit little-endian encoding of a length (the size prefix
`lz4_flex::compress_prepend_size` prepends). -/
def u32le (n : Nat) : List Nat :=
  [n % 256, n / 256 % 256, n / 65536 % 256, n / 16777216 % 256]

/-- Modelled from the spec: `lz4_flex::compress_prepend_size` — prepends
the uncompressed size as a little-endian `u32`, then the compressed body. -/
def lz4Compress (d : List Nat) : List Nat :=
  u32le (d.length % 4294967296) ++ rleEncode d

/-- Modelled from the spec: `lz4_flex::decompress_size_prepended` — reads
the 4-byte size prefix, decompresses the body, and fails if the decoded
size does not match the prefix. -/
def lz4Decompress (d : List Nat) : Except StorageError (List Nat) :=
  match d with
  | n0 :: n1 :: n2 :: n3 :: t =>
    let n := n0 + 256 * n1 + 65536 * n2 + 16777216 * n3
    match rleDecode t with
    | .ok out =>
      if out.length = n then .ok out
      else .error (.compression "LZ4 decompression failed: size mismatch")
    | .error e => .error e
  | _ => .error (.compression "LZ4 decompression failed: input too short")

/-- Modelled from the spec: `zstd::bulk::compress(data, 3)` as the same
invertible byte-oriented code (level is irrelevant to the model). -/
def zstdCompress (d : List Nat) : List Nat := rleEncode d

/-- Modelled from the spec: `zstd::bulk::decompress(data, capacity)` —
decompression into a buffer of `capacity` bytes, failing when the
decompressed output exceeds the capacity. -/
def zstdDecompressCap (cap : Nat) (d : List Nat) : Except StorageError (List Nat) :=
  match rleDecode d with
  | .ok out =>
    if out.length > cap then .error (.compression "ZSTD decompression failed: capacity exceeded")
    else .ok out
  | .error e => .error e

/-- `compress` from `src/crates/storage/src/compression.rs`. -/
def compress (data : List Nat) (t : CompressionType) : Except StorageError (List Nat) :=
  match t with
  | .none => .ok data
  | .lz4 => .ok (lz4Compress data)
  | .zstd => .ok (zstdCompress data)

/-- `decompress` from `src/crates/storage/src/compression.rs`; the `Zstd`
arm passes the hard-coded `1024 * 1024` byte capacity from the source. -/
def decompress (data : List Nat) (t : CompressionType) : Except StorageError (List Nat) :=
  match t with
  | .none => .ok data
  | .lz4 => lz4Decompress data
  | .zstd => zstdDecompressCap (1024 * 1024) data

theorem countRun_replicate (n : Nat) (b : Nat) : countRun b (List.replicate n b) = n := by
  induction n with
  | zero => rfl
  | succ k ih => simp [List.replicate, countRun, ih]

theorem replicate_append_drop :
    ∀ (m : Nat) (t : List Nat) (b : Nat), m ≤ countRun b t →
      List.replicate m b ++ t.drop m = t := by
  intro m
  induction m with
  | zero => intro t b _; simp
  | succ k ih =>
    intro t b h
    cases t with
    | nil => simp [countRun] at h
    | cons x xs =>
      by_cases hx : x = b
      · subst hx
        simp only [countRun, if_pos rfl] at h
        have hk : k ≤ countRun x xs := Nat.le_of_succ_le_succ h
        simp [List.replicate, List.drop, ih xs x hk]
      · simp [countRun, hx] at h

theorem rleDecode_rleEncode (l : List Nat) : rleDecode (rleEncode l) = .ok l := by
  induction l using rleEncode.induct with
  | case1 => simp [rleEncode, rleDecode]
  | case2 b t m ih =>
    rw [rleEncode]
    have h2 : List.replicate (m + 1) b ++ t.drop m = b :: t := by
      have h3 := replicate_append_drop m t b (Nat.min_le_right 254 (countRun b t))
      rw [List.replicate_succ, List.cons_append, h3]
    simp [rleDecode, ih, h2]

theorem lz4Decompress_lz4Compress {d : List Nat} (h : d.length < 4294967296) :
    lz4Decompress (lz4Compress d) = .ok d := by
  have hmod : d.length % 4294967296 = d.length := Nat.mod_eq_of_lt h
  rw [lz4Compress, hmod]
  simp only [u32le, List.cons_append, List.nil_append, lz4Decompress,
    rleDecode_rleEncode]
  rw [if_pos (by omega)]

theorem zstdDecompress_zstdCompress {cap : Nat} {d : List Nat} (h : d.length ≤ cap) :
    zstdDecompressCap cap (zstdCompress d) = .ok d := by
  rw [zstdCompress, zstdDecompressCap, rleDecode_rleEncode]
  simp [Nat.not_lt.mpr h]

theorem rleEncode_replicate_len (b : Nat) :
    ∀ m, (rleEncode (List.replicate m b)).length ≤ m + 2 := by
  intro m
  induction m using Nat.strong_induction_on with
  | _ m ih =>
    match m with
    | 0 => simp [rleEncode]
    | Nat.succ k =>
      rw [List.replicate_succ, rleEncode]
      simp only [countRun_replicate, List.drop_replicate, List.length_cons]
      by_cases hk : k ≤ 254
      · rw [Nat.min_eq_right hk, Nat.sub_self]
        simp [rleEncode]
      · rw [Nat.min_eq_left (by omega)]
        have := ih (k - 254) (by omega)
        omega

theorem rleEncode_replicate_le {n : Nat} (b : Nat) (h : 2 ≤ n) :
    (rleEncode (List.replicate n b)).length ≤ n := by
  match n, h with
  | Nat.succ k, _ =>
    rw [List.replicate_succ, rleEncode]
    simp only [countRun_replicate, List.drop_replicate, List.length_cons]
    by_cases hk : k ≤ 254
    · rw [Nat.min_eq_right hk, Nat.sub_self]
      simp [rleEncode]
      omega
    · rw [Nat.min_eq_left (by omega)]
      have := rleEncode_replicate_len b (k - 254)
      omega

theorem lz4Compress_replicate_le {n : Nat} (b : Nat) (h : 8 ≤ n) :
    (lz4Compress (List.replicate n b)).length ≤ n := by
  rw [lz4Compress]
  simp only [List.length_append, u32le, List.length_cons, List.length_nil]
  match n, h with
  | Nat.succ k, _ =>
    rw [List.replicate_succ, rleEncode]
    simp only [countRun_replicate, List.drop_replicate, List.length_cons]
    by_cases hk : k ≤ 254
    · rw [Nat.min_eq_right hk, Nat.sub_self]
      simp [rleEncode]
      omega
    · rw [Nat.min_eq_left (by omega)]
      have := rleEncode_replicate_len b (k - 254)
      omega

theorem zstdCompress_replicate_le {n : Nat} (b : Nat) (h : 2 ≤ n) :
    (zstdCompress (List.replicate n b)).length ≤ n :=
  rleEncode_replicate_le b h

/-! ### Key-value pairs and the `BTreeMap` model -/

/-- `KVPair` from `src/crates/storage/src/lib.rs`. -/
structure KVPair where
  key : Bytes
  value : Option Bytes
  timestamp : Nat
  sequence : Nat
deriving DecidableEq, Repr

/-- `KVPair::new`. -/
def KVPair.create (key value : Bytes) (timestamp sequence : Nat) : KVPair :=
  ⟨key, some value, timestamp, sequence⟩

/-- `KVPair::delete` — a tombstone. -/
def KVPair.tombstone (key : Bytes) (timestamp sequence : Nat) : KVPair :=
  ⟨key, none, timestamp, sequence⟩

/-- Lookup in a `BTreeMap<Vec<u8>, α>` modelled as a key-sorted association
list (`BTreeMap::get`). -/
def alLookup {α : Type} : List (Bytes × α) → Bytes → Option α
  | [], _ => none
  | (k, v) :: t, q => if q = k then some v else alLookup t q

/-- `BTreeMap::insert`: ordered insert, replacing an existing binding. -/
def btInsert {α : Type} : List (Bytes × α) → Bytes → α → List (Bytes × α)
  | [], k, v => [(k, v)]
  | (a, b) :: t, k, v =>
    if keyLt k a then (k, v) :: (a, b) :: t
    else if k = a then (k, v) :: t
    else (a, b) :: btInsert t k v

/-- The association list is strictly ascending in its keys — the
representation invariant of a `BTreeMap`. -/
def SortedKeys {α : Type} (l : List (Bytes × α)) : Prop :=
  l.Chain' (fun p q => keyLt p.1 q.1 = true)

theorem btInsert_ne_nil {α : Type} (l : List (Bytes × α)) (k : Bytes) (v : α) :
    btInsert l k v ≠ [] := by
  cases l with
  | nil => simp [btInsert]
  | cons p t =>
    obtain ⟨a, b⟩ := p
    rw [btInsert]
    split_ifs <;> simp

theorem alLookup_btInsert_self {α : Type} (l : List (Bytes × α)) (k : Bytes) (v : α) :
    alLookup (btInsert l k v) k = some v := by
  induction l with
  | nil => simp [btInsert, alLookup]
  | cons p t ih =>
    obtain ⟨a, b⟩ := p
    rw [btInsert]
    split_ifs with h1 h2
    · simp [alLookup]
    · simp [alLookup]
    · rw [alLookup, if_neg h2]
      exact ih

theorem btInsert_head {α : Type} (l : List (Bytes × α)) (k : Bytes) (v : α) :
    (btInsert l k v).head? = some (k, v) ∨ (btInsert l k v).head? = l.head? := by
  cases l with
  | nil => simp [btInsert]
  | cons p t =>
    obtain ⟨a, b⟩ := p
    rw [btInsert]
    split_ifs <;> simp

theorem sortedKeys_btInsert {α : Type} {l : List (Bytes × α)} (k : Bytes) (v : α)
    (hs : SortedKeys l) : SortedKeys (btInsert l k v) := by
  induction l with
  | nil => simp [btInsert, SortedKeys]
  | cons p t ih =>
    obtain ⟨a, b⟩ := p
    rw [SortedKeys, List.chain'_cons'] at hs
    obtain ⟨hhead, htail⟩ := hs
    rw [btInsert]
    split_ifs with h1 h2
    · rw [SortedKeys, List.chain'_cons']
      refine ⟨?_, List.chain'_cons'.mpr ⟨hhead, htail⟩⟩
      intro y hy
      simp at hy
      rw [← hy]
      exact h1
    · rw [SortedKeys, List.chain'_cons']
      subst h2
      exact ⟨hhead, htail⟩
    · have hak : keyLt a k = true := by
        rcases keyLt_total k a with h | h | h
        · exact absurd h h1
        · exact absurd h h2
        · exact h
      rw [SortedKeys, List.chain'_cons']
      refine ⟨?_, ih htail⟩
      intro y hy
      rcases btInsert_head t k v with hh | hh
      · rw [hh] at hy
        simp at hy
        rw [← hy]
        exact hak
      · rw [hh] at hy
        exact hhead y hy

theorem alLookup_none_of_lt_head {α : Type} {k a : Bytes} {b : α}
    {t : List (Bytes × α)} (hs : SortedKeys ((a, b) :: t)) (h : keyLt k a = true) :
    alLookup ((a, b) :: t) k = none := by
  induction t generalizing a b with
  | nil =>
    rw [alLookup, if_neg (keyLt_ne h)]
    rfl
  | cons q t' ih =>
    obtain ⟨c, d⟩ := q
    rw [alLookup, if_neg (keyLt_ne h)]
    rw [SortedKeys, List.chain'_cons'] at hs
    obtain ⟨hhead, htail⟩ := hs
    have hac : keyLt a c = true := hhead (c, d) (by simp)
    exact ih htail (keyLt_trans h hac)

/-! ### MemTable (`src/crates/storage/src/memtable.rs`) -/

/-- `MemTableEntry`. -/
structure MemTableEntry where
  value : Option Bytes
  sequence : Nat
deriving DecidableEq, Repr

/-- `MemTable`.  The `size` field models the `AtomicUsize`; under the size
invariant proved below the `usize` subtraction in the source cannot
underflow, so plain `Nat` subtraction is exact. -/
structure MemTable where
  data : List (Bytes × MemTableEntry)
  size : Nat
deriving DecidableEq, Repr

/-- `MemTable::new`. -/
def MemTable.create : MemTable := ⟨[], 0⟩

/-- The `old_size` computation duplicated at the top of `MemTable::put`
and `MemTable::delete`: cost of the binding currently stored for `key`
(`key + value + seq + ts`), 0 when the key is absent. -/
def MemTable.oldSizeOf (m : MemTable) (key : Bytes) : Nat :=
  match alLookup m.data key with
  | some old_entry =>
      key.length + (match old_entry.value with | some v => v.length | none => 0) + 8 + 8
  | none => 0

/-- `MemTable::put`. -/
def MemTable.put (m : MemTable) (key value : Bytes) (sequence : Nat) : MemTable :=
  let old_size := m.oldSizeOf key
  let new_size := key.length + value.length + 8 + 8
  { data := btInsert m.data key ⟨some value, sequence⟩
    size := m.size - old_size + new_size }

/-- `MemTable::delete` — inserts a tombstone. -/
def MemTable.del (m : MemTable) (key : Bytes) (sequence : Nat) : MemTable :=
  let old_size := m.oldSizeOf key
  let new_size := key.length + 8 + 8
  { data := btInsert m.data key ⟨none, sequence⟩
    size := m.size - old_size + new_size }

/-- `MemTable::get`: outer `none` = absent, `some none` = tombstone,
`some (some v)` = live value. -/
def MemTable.get (m : MemTable) (key : Bytes) : Option (Option Bytes) :=
  (alLookup m.data key).map (·.value)

/-- `MemTable::is_empty`. -/
def MemTable.isEmpty (m : MemTable) : Bool := m.data.isEmpty

/-- Exact byte footprint of one entry: key length plus value length
(0 for a tombstone) plus the 16-byte sequence/timestamp overhead. -/
def entrySize (p : Bytes × MemTableEntry) : Nat :=
  p.1.length + (match p.2.value with | some v => v.length | none => 0) + 16

/-- Sum of `entrySize` over the entries of a memtable's map. -/
def mtSum (l : List (Bytes × MemTableEntry)) : Nat :=
  l.foldr (fun p acc => entrySize p + acc) 0

/-- Cost of the binding currently stored for `k`, 0 when absent. -/
def oldCost (l : List (Bytes × MemTableEntry)) (k : Bytes) : Nat :=
  match alLookup l k with
  | some e => entrySize (k, e)
  | none => 0

theorem mtSum_cons (p : Bytes × MemTableEntry) (t : List (Bytes × MemTableEntry)) :
    mtSum (p :: t) = entrySize p + mtSum t := rfl

theorem oldCost_cons_ne {k a : Bytes} {b : MemTableEntry}
    {t : List (Bytes × MemTableEntry)} (h : ¬ k = a) :
    oldCost ((a, b) :: t) k = oldCost t k := by
  rw [oldCost, alLookup, if_neg h]
  rfl

theorem oldCost_le_mtSum (l : List (Bytes × MemTableEntry)) (k : Bytes) :
    oldCost l k ≤ mtSum l := by
  induction l with
  | nil => simp [oldCost, alLookup, mtSum]
  | cons p t ih =>
    obtain ⟨a, b⟩ := p
    by_cases h : k = a
    · subst h
      have h0 : oldCost ((k, b) :: t) k = entrySize (k, b) := by
        rw [oldCost, alLookup, if_pos rfl]
      rw [h0, mtSum_cons]
      exact Nat.le_add_right _ _
    · rw [oldCost_cons_ne h, mtSum_cons]
      exact Nat.le_trans ih (Nat.le_add_left _ _)

theorem mtSum_btInsert {l : List (Bytes × MemTableEntry)} (hs : SortedKeys l)
    (k : Bytes) (e : MemTableEntry) :
    mtSum (btInsert l k e) + oldCost l k = mtSum l + entrySize (k, e) := by
  induction l with
  | nil => simp [btInsert, mtSum, oldCost, alLookup]
  | cons p t ih =>
    obtain ⟨a, b⟩ := p
    rw [btInsert]
    split_ifs with h1 h2
    · have h0 : oldCost ((a, b) :: t) k = 0 := by
        rw [oldCost, alLookup_none_of_lt_head hs h1]
      rw [h0, mtSum_cons, mtSum_cons]
      omega
    · subst h2
      have h0 : oldCost ((k, b) :: t) k = entrySize (k, b) := by
        rw [oldCost, alLookup, if_pos rfl]
      rw [h0, mtSum_cons, mtSum_cons]
      omega
    · rw [SortedKeys, List.chain'_cons'] at hs
      obtain ⟨hhead, htail⟩ := hs
      have ht := ih htail
      rw [oldCost_cons_ne h2, mtSum_cons, mtSum_cons]
      omega

/-- MemTables reachable from `MemTable::new` by `put`/`delete` calls. -/
inductive MTReachable : MemTable → Prop
  | new : MTReachable MemTable.create
  | put (m : MemTable) (k v : Bytes) (s : Nat) :
      MTReachable m → MTReachable (m.put k v s)
  | del (m : MemTable) (k : Bytes) (s : Nat) :
      MTReachable m → MTReachable (m.del k s)

theorem oldSizeOf_eq_oldCost (m : MemTable) (k : Bytes) :
    m.oldSizeOf k = oldCost m.data k := by
  rw [MemTable.oldSizeOf, oldCost]
  cases alLookup m.data k with
  | none => rfl
  | some e => cases e.value <;> simp [entrySize]

theorem mtReachable_invariant {m : MemTable} (h : MTReachable m) :
    SortedKeys m.data ∧ m.size = mtSum m.data := by
  induction h with
  | new => exact ⟨List.chain'_nil, rfl⟩
  | put m k v s _ ih =>
    obtain ⟨hs, hsz⟩ := ih
    refine ⟨?_, ?_⟩
    · show SortedKeys (btInsert m.data k ⟨some v, s⟩)
      exact sortedKeys_btInsert k ⟨some v, s⟩ hs
    have hins := mtSum_btInsert hs k ⟨some v, s⟩
    have hle := oldCost_le_mtSum m.data k
    show m.size - m.oldSizeOf k + (k.length + v.length + 8 + 8)
        = mtSum (btInsert m.data k ⟨some v, s⟩)
    rw [oldSizeOf_eq_oldCost, hsz]
    have hes : entrySize (k, ⟨some v, s⟩) = k.length + v.length + 16 := by
      simp [entrySize]
    omega
  | del m k s _ ih =>
    obtain ⟨hs, hsz⟩ := ih
    refine ⟨?_, ?_⟩
    · show SortedKeys (btInsert m.data k ⟨none, s⟩)
      exact sortedKeys_btInsert k ⟨none, s⟩ hs
    have hins := mtSum_btInsert hs k ⟨none, s⟩
    have hle := oldCost_le_mtSum m.data k
    show m.size - m.oldSizeOf k + (k.length + 8 + 8)
        = mtSum (btInsert m.data k ⟨none, s⟩)
    rw [oldSizeOf_eq_oldCost, hsz]
    have hes : entrySize (k, ⟨none, s⟩) = k.length + 16 := by
      simp [entrySize]
    omega

/-! ### BlockCache (`src/crates/storage/src/cache.rs`)

`current_size` is a `usize`; the source subtracts `key.len() + entry.size`
where `entry.size` already includes the key length, so release-build
wrap-around is reachable and is modelled explicitly (`wadd`/`wsub` are
addition/subtraction modulo `2^64`).  Key lengths are counted in
characters, which coincides with Rust's byte length for the ASCII keys
(`"path:offset"`) the engine builds. -/

def wrapBound : Nat := 18446744073709551616

/-- Wrapping `usize` addition. -/
def wadd (a b : Nat) : Nat := (a + b) % wrapBound

/-- Wrapping `usize` subtraction. -/
def wsub (a b : Nat) : Nat := (a + wrapBound - b % wrapBound) % wrapBound

/-- `LRUCache` (the state inside `BlockCache`): `data` models the
`HashMap<String, CacheEntry>` as an association list storing
`(value, size)`, `access_order` the recency vector (front = LRU). -/
structure LRUCache where
  data : List (String × Bytes × Nat)
  capacity : Nat
  current_size : Nat
  access_order : List String
deriving DecidableEq, Repr

/-- `BlockCache::new`. -/
def cacheNew (capacity : Nat) : LRUCache :=
  { data := [], capacity := capacity, current_size := 0, access_order := [] }

/-- `HashMap::get` on the association-list model. -/
def hmLookup : List (String × Bytes × Nat) → String → Option (Bytes × Nat)
  | [], _ => none
  | (k, e) :: t, q => if q = k then some e else hmLookup t q

/-- `HashMap::remove` (a hash map holds at most one binding per key, so
removal is modelled as dropping every binding of the key). -/
def hmRemove (l : List (String × Bytes × Nat)) (q : String) : List (String × Bytes × Nat) :=
  l.filter (fun p => p.1 != q)

/-- `BlockCache::get`: returns a copy of the value and promotes the key
to most-recently-used. -/
def cacheGet (c : LRUCache) (key : String) : Option Bytes × LRUCache :=
  match hmLookup c.data key with
  | some (v, _) =>
    (some v, { c with access_order := (c.access_order.erase key) ++ [key] })
  | none => (none, c)

/-- One iteration of the eviction loop in `BlockCache::put`: pop the
front (least-recently-used) key, drop its binding and subtract
`lru_key.len() + entry.size` from the running size. -/
def evictOnce (c : LRUCache) (lru_key : String) (rest : List String) : LRUCache :=
  match hmLookup c.data lru_key with
  | some (_, sz) =>
      { c with data := hmRemove c.data lru_key
               current_size := wsub c.current_size (lru_key.length + sz)
               access_order := rest }
  | none => { c with access_order := rest }

/-- The eviction loop of `BlockCache::put`
(`while current_size + entry_size > capacity && !access_order.is_empty()`),
run structurally over the recency vector. -/
def evictLoopAux (order : List String) (c : LRUCache) (entry_size : Nat) : LRUCache :=
  match order with
  | [] => c
  | lru_key :: rest =>
    if wadd c.current_size entry_size > c.capacity then
      evictLoopAux rest (evictOnce c lru_key rest) entry_size
    else c

/-- `BlockCache::put`: drop an existing binding of the key, evict
least-recently-used entries while the size budget is exceeded, then
insert the new entry only if it fits the capacity on its own. -/
def cachePut (c : LRUCache) (key : String) (value : Bytes) : LRUCache :=
  let entry_size := key.length + value.length
  let c1 := match hmLookup c.data key with
    | some (_, old_size) =>
        { c with data := hmRemove c.data key
                 current_size := wsub c.current_size (key.length + old_size)
                 access_order := c.access_order.erase key }
    | none => c
  let c2 := evictLoopAux c1.access_order c1 entry_size
  if entry_size ≤ c2.capacity then
    { c2 with data := c2.data ++ [(key, value, entry_size)]
              access_order := c2.access_order ++ [key]
              current_size := wadd c2.current_size entry_size }
  else c2

/-- Well-formed cache states: no duplicate recency entries, and the map
and the recency vector hold exactly the same keys. -/
def WFCache (c : LRUCache) : Prop :=
  c.access_order.Nodup ∧
  (∀ q ∈ c.access_order, (hmLookup c.data q).isSome = true) ∧
  (∀ p ∈ c.data, p.1 ∈ c.access_order)

instance (c : LRUCache) : Decidable (WFCache c) := by
  unfold WFCache
  infer_instance

theorem hmLookup_hmRemove_self (l : List (String × Bytes × Nat)) (q : String) :
    hmLookup (hmRemove l q) q = none := by
  induction l with
  | nil => rfl
  | cons p t ih =>
    obtain ⟨k, e⟩ := p
    rw [hmRemove, List.filter_cons]
    by_cases h : k = q
    · simp only [h, bne_self_eq_false]
      exact ih
    · have : (k != q) = true := bne_iff_ne.mpr h
      simp only [this, if_pos]
      rw [hmLookup, if_neg (Ne.symm h)]
      exact ih

theorem hmLookup_hmRemove_ne {q r : String} (l : List (String × Bytes × Nat))
    (h : q ≠ r) : hmLookup (hmRemove l r) q = hmLookup l q := by
  induction l with
  | nil => rfl
  | cons p t ih =>
    obtain ⟨k, e⟩ := p
    rw [hmRemove, List.filter_cons]
    by_cases hk : k = r
    · have hbf : (k != r) = false := by simp [hk]
      simp only [hbf, Bool.false_eq_true, if_false]
      have hrem : List.filter (fun p => p.1 != r) t = hmRemove t r := rfl
      rw [hrem, ih, hmLookup, if_neg (by rw [hk]; exact h)]
    · have : (k != r) = true := bne_iff_ne.mpr hk
      simp only [this, if_pos]
      rw [hmLookup, hmLookup]
      by_cases hq : q = k
      · rw [if_pos hq, if_pos hq]
      · rw [if_neg hq, if_neg hq]
        exact ih

theorem hmLookup_append_ne {q k : String} (l : List (String × Bytes × Nat))
    (e : Bytes × Nat) (h : q ≠ k) :
    hmLookup (l ++ [(k, e)]) q = hmLookup l q := by
  induction l with
  | nil => simp [hmLookup, if_neg h]
  | cons p t ih =>
    obtain ⟨a, b⟩ := p
    rw [List.cons_append, hmLookup, hmLookup]
    by_cases hq : q = a
    · rw [if_pos hq, if_pos hq]
    · rw [if_neg hq, if_neg hq]
      exact ih

theorem hmLookup_append_self {k : String} (l : List (String × Bytes × Nat))
    (e : Bytes × Nat) (h : hmLookup l k = none) :
    hmLookup (l ++ [(k, e)]) k = some e := by
  induction l with
  | nil => simp [hmLookup]
  | cons p t ih =>
    obtain ⟨a, b⟩ := p
    rw [hmLookup] at h
    rw [List.cons_append, hmLookup]
    by_cases hq : k = a
    · rw [if_pos hq] at h
      exact absurd h (by simp)
    · rw [if_neg hq] at h
      rw [if_neg hq]
      exact ih h

theorem evictLoopAux_lookup_none (order : List String) (es : Nat) :
    ∀ (c : LRUCache) (q : String), hmLookup c.data q = none →
      hmLookup (evictLoopAux order c es).data q = none := by
  induction order with
  | nil => intro c q h; exact h
  | cons lru rest ih =>
    intro c q h
    rw [evictLoopAux]
    split_ifs with hc
    · refine ih _ q ?_
      rw [evictOnce]
      cases hmLookup c.data lru with
      | none => exact h
      | some e =>
        obtain ⟨v, sz⟩ := e
        simp only
        by_cases hq : q = lru
        · rw [hq]; exact hmLookup_hmRemove_self _ _
        · rw [hmLookup_hmRemove_ne _ hq]; exact h
    · exact h

theorem evictLoopAux_spec (es : Nat) :
    ∀ (order : List String) (c : LRUCache), c.access_order = order → order.Nodup →
      ∃ n, (evictLoopAux order c es).access_order = order.drop n ∧
        (evictLoopAux order c es).data.length ≤ c.data.length ∧
        (∀ q, q ∈ order.drop n →
          hmLookup (evictLoopAux order c es).data q = hmLookup c.data q) := by
  intro order
  induction order with
  | nil =>
    intro c hord _
    exact ⟨0, by rw [evictLoopAux, hord, List.drop_zero], Nat.le_refl _,
      by intro q hq; simp at hq⟩
  | cons lru rest ih =>
    intro c hord hnd
    rw [evictLoopAux]
    split_ifs with hc
    · have hnd' : rest.Nodup := (List.nodup_cons.mp hnd).2
      have hlru : lru ∉ rest := (List.nodup_cons.mp hnd).1
      have hord' : (evictOnce c lru rest).access_order = rest := by
        rw [evictOnce]
        cases hmLookup c.data lru with
        | none => rfl
        | some e => obtain ⟨v, sz⟩ := e; rfl
      obtain ⟨n, h1, h2, h3⟩ := ih (evictOnce c lru rest) hord' hnd'
      refine ⟨n + 1, ?_, ?_, ?_⟩
      · rw [List.drop_succ_cons]
        exact h1
      · refine Nat.le_trans h2 ?_
        rw [evictOnce]
        cases hmLookup c.data lru with
        | none => exact Nat.le_refl _
        | some e =>
          obtain ⟨v, sz⟩ := e
          simp only
          exact List.length_filter_le _ _
      · intro q hq
        rw [List.drop_succ_cons] at hq
        rw [h3 q hq]
        rw [evictOnce]
        cases hmLookup c.data lru with
        | none => rfl
        | some e =>
          obtain ⟨v, sz⟩ := e
          simp only
          have hqr : q ≠ lru := by
            intro he
            exact hlru (he ▸ List.mem_of_mem_drop hq)
          exact hmLookup_hmRemove_ne _ hqr
    · exact ⟨0, by rw [hord, List.drop_zero], Nat.le_refl _, fun q _ => rfl⟩

/-! ### SSTable (`src/crates/storage/src/sstable.rs`)

On-disk file contents are carried in the states (`fileBytes`), modelling
the `tokio::fs` reads and writes.  `serde_json` output is modelled as the
exact JSON text serde produces; JSON object braces are written with
escape codes purely as a notational choice. -/

/-- UTF-8 bytes of a string (all strings produced here are ASCII). -/
def strBytes (s : String) : List Nat := s.data.map Char.toNat

/-- JSON rendering of a `Vec<u8>` (serde serializes it as a number array). -/
def jsonOfBytes (b : Bytes) : String :=
  "[" ++ String.intercalate "," (b.map Nat.repr) ++ "]"

/-- `IndexEntry`. -/
structure IndexEntry where
  key : Bytes
  offset : Nat
  size : Nat
deriving DecidableEq, Repr

/-- `SSTableFooter`. -/
structure SSTableFooter where
  index_offset : Nat
  index_size : Nat
  bloom_filter_offset : Nat
  bloom_filter_size : Nat
  compression : CompressionType
  num_entries : Nat
  crc : Nat
deriving DecidableEq, Repr

/-- serde_json text of one `IndexEntry`. -/
def indexEntryJson (e : IndexEntry) : String :=
  "\x7b\"key\":" ++ jsonOfBytes e.key ++ ",\"offset\":" ++ Nat.repr e.offset ++
    ",\"size\":" ++ Nat.repr e.size ++ "\x7d"

/-- serde_json text of `Vec<IndexEntry>`. -/
def indexJson (l : List IndexEntry) : String :=
  "[" ++ String.intercalate "," (l.map indexEntryJson) ++ "]"

/-- serde_json text of a `CompressionType` value. -/
def compressionJson : CompressionType → String
  | .none => "\"None\""
  | .lz4 => "\"LZ4\""
  | .zstd => "\"Zstd\""

/-- serde_json text of an `SSTableFooter` (fields in declaration order,
integers in decimal). -/
def footerJson (f : SSTableFooter) : String :=
  "\x7b\"index_offset\":" ++ Nat.repr f.index_offset ++
    ",\"index_size\":" ++ Nat.repr f.index_size ++
    ",\"bloom_filter_offset\":" ++ Nat.repr f.bloom_filter_offset ++
    ",\"bloom_filter_size\":" ++ Nat.repr f.bloom_filter_size ++
    ",\"compression\":" ++ compressionJson f.compression ++
    ",\"num_entries\":" ++ Nat.repr f.num_entries ++
    ",\"crc\":" ++ Nat.repr f.crc ++ "\x7d"

/-- `serde_json::to_vec` of the pending block, a
`BTreeMap<Vec<u8>, Option<Vec<u8>>>`: JSON object keys must be strings
and `Vec<u8>` serializes as a sequence, so serde_json fails on every
nonempty map with "key must be a string"; the empty map serializes
to the two-byte object `\x7b\x7d`. -/
def serdeBlockJson (block : List (Bytes × Option Bytes)) : Except StorageError (List Nat) :=
  match block with
  | [] => .ok (strBytes "\x7b\x7d")
  | _ :: _ => .error (.serde "key must be a string")

/-- `SSTable`: an opened, immutable on-disk table.  `fileBytes` is the
content of the file at `file_path`; `index` is the in-memory `BTreeMap`
from each block's first key to its index entry. -/
structure SSTable where
  file_path : String
  fileBytes : Bytes
  footer : SSTableFooter
  index : List (Bytes × IndexEntry)
deriving DecidableEq, Repr

/-- `self.index.range(..=key).next_back()`: the entry of the greatest
`first_key ≤ key`, if any. -/
def indexSeek (index : List (Bytes × IndexEntry)) (key : Bytes) : Option IndexEntry :=
  ((index.filter (fun p => keyLe p.1 key)).getLast?).map (fun p => p.2)

/-- `SSTable::get`.  The source never parses the fetched block (the block
lookup is left as a TODO): a cache hit returns the cached bytes as the
value, and on a cache miss any nonempty decompressed block yields
`Ok(Some(None))`, an empty one `Ok(None)`. -/
def sstGet (t : SSTable) (key : Bytes) (cache : LRUCache) :
    Except StorageError (Option (Option Bytes)) × LRUCache :=
  match indexSeek t.index key with
  | some entry =>
    let cache_key := t.file_path ++ ":" ++ Nat.repr entry.offset
    match cacheGet cache cache_key with
    | (some cached_value, cache1) => (.ok (some (some cached_value)), cache1)
    | (none, cache1) =>
      if t.fileBytes.length < entry.offset + entry.size then
        (.error (.io "failed to fill whole buffer"), cache1)
      else
        let compressed_data := (t.fileBytes.drop entry.offset).take entry.size
        match decompress compressed_data t.footer.compression with
        | .error e => (.error e, cache1)
        | .ok decompressed =>
          match cacheGet cache1 cache_key with
          | (some v, cache2) => (.ok (some (some v)), cache2)
          | (none, cache2) =>
            if ¬ decompressed.isEmpty then (.ok (some none), cache2)
            else (.ok none, cache2)
  | none => (.ok none, cache)

/-- `SSTableBuilder`. -/
structure SSTableBuilder where
  file_path : String
  fileBytes : Bytes
  compression : CompressionType
  current_block : List (Bytes × Option Bytes)
  blocks_written : Nat
  index_entries : List IndexEntry
  current_offset : Nat
  num_entries : Nat
deriving DecidableEq, Repr

/-- `SSTableBuilder::new` (creates/truncates the file). -/
def builderNew (file_path : String) (compression : CompressionType) : SSTableBuilder :=
  { file_path := file_path, fileBytes := [], compression := compression,
    current_block := [], blocks_written := 0, index_entries := [],
    current_offset := 0, num_entries := 0 }

/-- `SSTableBuilder::estimate_block_size`:
`serde_json::to_vec(&self.current_block).unwrap_or_default().len()` —
serde fails on every nonempty block, so the estimate is 0 whenever the
block holds at least one entry. -/
def estimateBlockSize (b : SSTableBuilder) : Nat :=
  match serdeBlockJson b.current_block with
  | .ok bytes => bytes.length
  | .error _ => 0

/-- Replace the `size` of the last index entry
(`self.index_entries.last_mut()`). -/
def updateLastSize (l : List IndexEntry) (sz : Nat) : List IndexEntry :=
  match l with
  | [] => []
  | [e] => [{ e with size := sz }]
  | x :: xs => x :: updateLastSize xs sz

/-- `SSTableBuilder::flush_current_block`.  Note the source only tracks
the offset — the compressed block bytes are never written to the file
("In real implementation, we would write to file here"). -/
def flushCurrentBlock (b : SSTableBuilder) : Except StorageError SSTableBuilder :=
  if b.current_block.isEmpty then .ok b
  else
    let b1 := match b.current_block.head? with
      | some (first_key, _) =>
          { b with index_entries :=
              b.index_entries ++ [(⟨first_key, b.current_offset, 0⟩ : IndexEntry)] }
      | none => b
    match serdeBlockJson b1.current_block with
    | .error e => .error e
    | .ok block_data =>
      match compress block_data b1.compression with
      | .error e => .error e
      | .ok compressed_block =>
        let b2 := { b1 with
          index_entries := updateLastSize b1.index_entries (compressed_block.length % 4294967296) }
        .ok { b2 with current_offset := b2.current_offset + compressed_block.length
                      blocks_written := b2.blocks_written + 1
                      current_block := [] }

/-- `SSTableBuilder::add`: insert into the pending block (a `BTreeMap`,
so equal keys overwrite), count the entry, and flush the block once the
estimated serialized size reaches `BLOCK_SIZE` (4096). -/
def builderAdd (b : SSTableBuilder) (key : Bytes) (value : Option Bytes) (_sequence : Nat) :
    Except StorageError SSTableBuilder :=
  let b1 := { b with current_block := btInsert b.current_block key value
                     num_entries := b.num_entries + 1 }
  if estimateBlockSize b1 ≥ 4096 then flushCurrentBlock b1 else .ok b1

/-- `SSTableBuilder::finish`: flush the pending block, write the
compressed index, then build the 48-byte footer.  The serialized footer
is checked against `FOOTER_SIZE` (48); `footerJson_length_gt` below
proves the check always fails, so the sync-and-reopen tail of the source
(`SSTable::open` on the fresh file) is dead code and is left unmodelled
behind an error sentinel that the proofs never rely on. -/
def finishB (b : SSTableBuilder) : Except StorageError SSTable :=
  match (if ¬ b.current_block.isEmpty then flushCurrentBlock b else .ok b) with
  | .error e => .error e
  | .ok b1 =>
    let index_offset := b1.current_offset
    let index_data := strBytes (indexJson b1.index_entries)
    match compress index_data b1.compression with
    | .error e => .error e
    | .ok compressed_index =>
      let b2 := { b1 with fileBytes := b1.fileBytes ++ compressed_index
                          current_offset := b1.current_offset + compressed_index.length }
      let footer : SSTableFooter :=
        { index_offset := index_offset, index_size := compressed_index.length,
          bloom_filter_offset := 0, bloom_filter_size := 0,
          compression := b2.compression, num_entries := b2.num_entries, crc := 0 }
      let footer_data := strBytes (footerJson footer)
      if footer_data.length > 48 then .error (.internal "Footer too large")
      else .error (.internal "unreachable footer-fits path: not modelled")

theorem strBytes_length (s : String) : (strBytes s).length = s.length := by
  rw [strBytes, List.length_map]
  rfl

theorem footerJson_length_gt (f : SSTableFooter) : (strBytes (footerJson f)).length > 48 := by
  rw [strBytes_length, footerJson]
  simp only [String.length_append]
  have e1 : ("\x7b\"index_offset\":" : String).length = 16 := rfl
  have e2 : (",\"index_size\":" : String).length = 14 := rfl
  have e3 : (",\"bloom_filter_offset\":" : String).length = 23 := rfl
  have e4 : (",\"bloom_filter_size\":" : String).length = 21 := rfl
  have e5 : (",\"compression\":" : String).length = 15 := rfl
  have e6 : (",\"num_entries\":" : String).length = 15 := rfl
  have e7 : (",\"crc\":" : String).length = 7 := rfl
  have e8 : ("\x7d" : String).length = 1 := rfl
  rw [e1, e2, e3, e4, e5, e6, e7, e8]
  omega

theorem compress_ok (d : List Nat) (t : CompressionType) :
    ∃ c, compress d t = .ok c := by
  cases t with
  | none => exact ⟨d, rfl⟩
  | lz4 => exact ⟨lz4Compress d, rfl⟩
  | zstd => exact ⟨zstdCompress d, rfl⟩

theorem flushCurrentBlock_nonempty {b : SSTableBuilder}
    (h : b.current_block ≠ []) :
    flushCurrentBlock b = .error (.serde "key must be a string") := by
  rw [flushCurrentBlock, if_neg (by simpa [List.isEmpty_iff] using h)]
  match hb : b.current_block, h with
  | (k, v) :: rest, _ => rfl

theorem finishB_error (b : SSTableBuilder) :
    finishB b = .error (.serde "key must be a string") ∨
      finishB b = .error (.internal "Footer too large") := by
  rw [finishB]
  by_cases h : b.current_block = []
  · rw [if_neg (by simp [List.isEmpty_iff, h])]
    obtain ⟨c, hc⟩ := compress_ok (strBytes (indexJson b.index_entries)) b.compression
    simp only [hc]
    rw [if_pos (footerJson_length_gt _)]
    exact Or.inr rfl
  · rw [if_pos (by simpa [List.isEmpty_iff] using h), flushCurrentBlock_nonempty h]
    exact Or.inl rfl

/-! ### LSMTree (`src/crates/storage/src/lsm.rs`)

`LSMTree` methods take `&self` and mutate through interior mutability, so
even calls that return `Err` leave their partial effects behind; every
operation is therefore modelled as `LSMState → result × LSMState`.
`timestamp` (wall-clock milliseconds in the source) is threaded as an
explicit argument.  The WAL file is carried at record granularity
(`walFile`); its byte-level format is modelled separately below for
`WriteAheadLog::recover`. -/

/-- `StorageConfig` from `src/crates/storage/src/lib.rs`. -/
structure StorageConfig where
  data_dir : String
  wal_dir : String
  memtable_size_mb : Nat
  l0_compaction_trigger : Nat
  max_levels : Nat
  target_file_size_mb : Nat
  compression : CompressionType
  cache_size_mb : Nat
deriving DecidableEq, Repr

/-- The full engine state: config, sequence counter, active memtable,
immutable-memtable queue, WAL content (records, in append order) and the
WAL's own counter, the level array, and the shared block cache. -/
structure LSMState where
  config : StorageConfig
  sequence_number : Nat
  active : MemTable
  immutable : List MemTable
  walFile : List KVPair
  walSeq : Nat
  levels : List (List SSTable)
  cache : LRUCache
deriving DecidableEq, Repr

/-- `WriteAheadLog::append`: serialize, checksum, length-prefix, write and
sync — at record granularity, the record lands at the end of the log and
the WAL counter is bumped. -/
def walAppend (s : LSMState) (kv : KVPair) : LSMState :=
  { s with walFile := s.walFile ++ [kv], walSeq := s.walSeq + 1 }

/-- `WriteAheadLog::truncate`: reset the file to empty and the internal
sequence counter to 0.  No code in the storage crate calls it. -/
def walTruncate (s : LSMState) : LSMState :=
  { s with walFile := [], walSeq := 0 }

/-- The `for (key, entry) in memtable.iter()` loop of
`flush_memtable_to_l0`, feeding `builder.add`. -/
def addAll (b : SSTableBuilder) :
    List (Bytes × MemTableEntry) → Except StorageError SSTableBuilder
  | [] => .ok b
  | (k, e) :: rest =>
    match builderAdd b k e.value e.sequence with
    | .error err => .error err
    | .ok b1 => addAll b1 rest

/-- `levels[0].push(Arc::new(sstable))` (the level array is nonempty in
every state `open` builds; on an empty array the source would panic). -/
def levelsPush (levels : List (List SSTable)) (sst : SSTable) : List (List SSTable) :=
  match levels with
  | [] => []
  | l0 :: rest => (l0 ++ [sst]) :: rest

/-- `LSMTree::flush_memtable_to_l0`. -/
def flushMemtableToL0 (s : LSMState) (mt : MemTable) :
    Except StorageError Unit × LSMState :=
  if mt.isEmpty then (.ok (), s)
  else
    let file_number := s.sequence_number
    let s1 := { s with sequence_number := s.sequence_number + 1 }
    let file_path := s1.config.data_dir ++ "/" ++ Nat.repr file_number ++ ".sst"
    match addAll (builderNew file_path s1.config.compression) mt.data with
    | .error e => (.error e, s1)
    | .ok b =>
      match finishB b with
      | .error e => (.error e, s1)
      | .ok sst => (.ok (), { s1 with levels := levelsPush s1.levels sst })

/-- The drain loop of `flush_immutable_memtables`. -/
def flushImmList (s : LSMState) : List MemTable → Except StorageError Unit × LSMState
  | [] => (.ok (), s)
  | mt :: rest =>
    match flushMemtableToL0 s mt with
    | (.ok _, s1) => flushImmList s1 rest
    | (.error e, s1) => (.error e, s1)

/-- `LSMTree::flush_immutable_memtables`: take the queued memtables and
flush each in order (a failure drops the already-taken queue). -/
def flushImmutableMemtables (s : LSMState) : Except StorageError Unit × LSMState :=
  flushImmList { s with immutable := [] } s.immutable

/-- `LSMTree::rotate_memtable`. -/
def rotateMemtable (s : LSMState) : Except StorageError Unit × LSMState :=
  let old := s.active
  let s1 := { s with active := MemTable.create }
  let s2 := if old.isEmpty then s1 else { s1 with immutable := s1.immutable ++ [old] }
  flushImmutableMemtables s2

/-- `LSMTree::put`. -/
def lsmPut (s : LSMState) (key value : Bytes) (timestamp : Nat) :
    Except StorageError Unit × LSMState :=
  let seq := s.sequence_number
  let s1 := { s with sequence_number := s.sequence_number + 1 }
  let s2 := walAppend s1 (KVPair.create key value timestamp seq)
  let mt := s2.active.put key value seq
  let s3 := { s2 with active := mt }
  if mt.size ≥ s3.config.memtable_size_mb * 1024 * 1024 then rotateMemtable s3
  else (.ok (), s3)

/-- `LSMTree::delete`. -/
def lsmDelete (s : LSMState) (key : Bytes) (timestamp : Nat) :
    Except StorageError Unit × LSMState :=
  let seq := s.sequence_number
  let s1 := { s with sequence_number := s.sequence_number + 1 }
  let s2 := walAppend s1 (KVPair.tombstone key timestamp seq)
  let mt := s2.active.del key seq
  let s3 := { s2 with active := mt }
  if mt.size ≥ s3.config.memtable_size_mb * 1024 * 1024 then rotateMemtable s3
  else (.ok (), s3)

/-- The `for memtable in immutable.iter().rev()` loop of `LSMTree::get`. -/
def immLookup (imm : List MemTable) (key : Bytes) : Option (Option Bytes) :=
  imm.reverse.findSome? (fun mt => mt.get key)

/-- The `for sstable in level.iter().rev()` loop of `LSMTree::get`
(on the already-reversed list). -/
def tablesLookup (key : Bytes) :
    List SSTable → LRUCache → Except StorageError (Option (Option Bytes)) × LRUCache
  | [], cache => (.ok none, cache)
  | t :: rest, cache =>
    match sstGet t key cache with
    | (.error e, c1) => (.error e, c1)
    | (.ok (some v), c1) => (.ok (some v), c1)
    | (.ok none, c1) => tablesLookup key rest c1

/-- The `for level in levels.iter()` loop of `LSMTree::get`. -/
def levelsLookup (key : Bytes) :
    List (List SSTable) → LRUCache → Except StorageError (Option (Option Bytes)) × LRUCache
  | [], cache => (.ok none, cache)
  | level :: rest, cache =>
    match tablesLookup key level.reverse cache with
    | (.error e, c1) => (.error e, c1)
    | (.ok (some v), c1) => (.ok (some v), c1)
    | (.ok none, c1) => levelsLookup key rest c1

/-- `LSMTree::get`: active memtable, then immutable memtables newest
first, then levels top-down with files newest first; the first tier that
reports the key (value or tombstone) decides the answer. -/
def lsmGet (s : LSMState) (key : Bytes) :
    Except StorageError (Option Bytes) × LSMState :=
  match s.active.get key with
  | some value => (.ok value, s)
  | none =>
    match immLookup s.immutable key with
    | some value => (.ok value, s)
    | none =>
      match levelsLookup key s.levels s.cache with
      | (.error e, c1) => (.error e, { s with cache := c1 })
      | (.ok (some value), c1) => (.ok value, { s with cache := c1 })
      | (.ok none, c1) => (.ok none, { s with cache := c1 })

/-- `LSMTree::flush`. -/
def lsmFlush (s : LSMState) : Except StorageError Unit × LSMState :=
  match rotateMemtable s with
  | (.error e, s1) => (.error e, s1)
  | (.ok _, s1) => flushImmutableMemtables s1

/-- The per-record body of `recover_from_wal`: apply a recovered record to
the active memtable and advance the engine sequence counter past it. -/
def recoverApply (s : LSMState) (e : KVPair) : LSMState :=
  let s1 := match e.value with
    | some v => { s with active := s.active.put e.key v e.sequence }
    | none => { s with active := s.active.del e.key e.sequence }
  if e.sequence ≥ s1.sequence_number then { s1 with sequence_number := e.sequence + 1 }
  else s1

/-- Final value of the WAL's own counter after `recover` (it stores
`sequence + 1` for each kept record). -/
def walSeqOf (l : List KVPair) : Nat :=
  match l.getLast? with
  | some e => e.sequence + 1
  | none => 0

/-- `LSMTree::open` given the records `WriteAheadLog::recover` returns:
fresh cache, empty level array of `max_levels` levels, fresh memtable,
then WAL replay into the active memtable. -/
def lsmOpen (config : StorageConfig) (walRecords : List KVPair) : LSMState :=
  let s : LSMState :=
    { config := config, sequence_number := 0, active := MemTable.create,
      immutable := [], walFile := walRecords, walSeq := walSeqOf walRecords,
      levels := List.replicate config.max_levels [],
      cache := cacheNew (config.cache_size_mb * 1024 * 1024) }
  walRecords.foldl recoverApply s

theorem builderAdd_eq (b : SSTableBuilder) (k : Bytes) (v : Option Bytes) (sq : Nat) :
    builderAdd b k v sq =
      .ok { b with current_block := btInsert b.current_block k v
                   num_entries := b.num_entries + 1 } := by
  have h0 : estimateBlockSize
      { b with
        current_block := btInsert b.current_block k v
        num_entries := b.num_entries + 1 } = 0 := by
    show (match serdeBlockJson (btInsert b.current_block k v) with
      | .ok bytes => bytes.length
      | .error _ => 0) = 0
    cases hb : btInsert b.current_block k v with
    | nil => exact absurd hb (btInsert_ne_nil _ _ _)
    | cons hd tl => rfl
  simp only [builderAdd]
  rw [h0, if_neg (by omega)]

theorem addAll_ok {entries : List (Bytes × MemTableEntry)} :
    ∀ {b : SSTableBuilder}, (entries ≠ [] ∨ b.current_block ≠ []) →
      ∃ b1, addAll b entries = .ok b1 ∧ b1.current_block ≠ [] := by
  induction entries with
  | nil =>
    intro b h
    rcases h with h | h
    · exact absurd rfl h
    · exact ⟨b, rfl, h⟩
  | cons p rest ih =>
    intro b _
    obtain ⟨k, e⟩ := p
    rw [addAll, builderAdd_eq]
    exact ih (Or.inr (btInsert_ne_nil _ _ _))

theorem finishB_nonempty_block {b : SSTableBuilder} (h : b.current_block ≠ []) :
    finishB b = .error (.serde "key must be a string") := by
  rw [finishB, if_pos (by simpa [List.isEmpty_iff] using h), flushCurrentBlock_nonempty h]

theorem flushMemtableToL0_nonempty (s : LSMState) {mt : MemTable}
    (h : mt.isEmpty = false) :
    flushMemtableToL0 s mt =
      (.error (.serde "key must be a string"),
        { s with sequence_number := s.sequence_number + 1 }) := by
  have hd : mt.data ≠ [] := by
    rw [MemTable.isEmpty] at h
    exact fun he => by rw [he] at h; simp at h
  simp only [flushMemtableToL0, h, Bool.false_eq_true, if_false]
  obtain ⟨b1, hb1, hcb⟩ := addAll_ok (b := builderNew
    (s.config.data_dir ++ "/" ++ Nat.repr s.sequence_number ++ ".sst")
    s.config.compression) (Or.inl hd)
  simp only [hb1, finishB_nonempty_block hcb]

theorem flushImmList_err {mts : List MemTable} :
    ∀ (s : LSMState), (∃ mt ∈ mts, mt.isEmpty = false) →
      ∃ s1, flushImmList s mts = (.error (.serde "key must be a string"), s1) := by
  induction mts with
  | nil =>
    intro s h
    obtain ⟨mt, hmem, _⟩ := h
    exact absurd hmem (List.not_mem_nil mt)
  | cons mt rest ih =>
    intro s h
    rw [flushImmList]
    by_cases hmt : mt.isEmpty
    · have : flushMemtableToL0 s mt = (.ok (), s) := by
        rw [flushMemtableToL0, if_pos hmt]
      rw [this]
      refine ih s ?_
      obtain ⟨m, hmem, hne⟩ := h
      rcases List.mem_cons.mp hmem with he | he
      · rw [he] at hne; rw [hne] at hmt; exact absurd hmt (by simp)
      · exact ⟨m, he, hne⟩
    · have hf : mt.isEmpty = false := Bool.not_eq_true _ ▸ eq_false_of_ne_true hmt
      rw [flushMemtableToL0_nonempty s hf]
      exact ⟨_, rfl⟩

theorem rotateMemtable_nonempty {s : LSMState} (h : s.active.isEmpty = false) :
    ∃ s1, rotateMemtable s = (.error (.serde "key must be a string"), s1) := by
  rw [rotateMemtable]
  simp only [h, Bool.false_eq_true, if_false]
  rw [flushImmutableMemtables]
  exact flushImmList_err _ ⟨s.active, by simp, h⟩

theorem memtablePut_nonempty (m : MemTable) (k v : Bytes) (sq : Nat) :
    (m.put k v sq).isEmpty = false := by
  show (btInsert m.data k ⟨some v, sq⟩).isEmpty = false
  cases hb : btInsert m.data k ⟨some v, sq⟩ with
  | nil => exact absurd hb (btInsert_ne_nil _ _ _)
  | cons hd tl => rfl

theorem memtableDel_nonempty (m : MemTable) (k : Bytes) (sq : Nat) :
    (m.del k sq).isEmpty = false := by
  show (btInsert m.data k ⟨none, sq⟩).isEmpty = false
  cases hb : btInsert m.data k ⟨none, sq⟩ with
  | nil => exact absurd hb (btInsert_ne_nil _ _ _)
  | cons hd tl => rfl

/-- A `put` that returns `Ok` took the no-rotation branch: its exact
effect is one WAL record, one memtable upsert and a sequence bump. -/
theorem lsmPut_ok {s : LSMState} {k v : Bytes} {ts : Nat}
    (h : (lsmPut s k v ts).1 = .ok ()) :
    lsmPut s k v ts = (.ok (),
      { s with
          sequence_number := s.sequence_number + 1
          walFile := s.walFile ++ [KVPair.create k v ts s.sequence_number]
          walSeq := s.walSeq + 1
          active := s.active.put k v s.sequence_number }) := by
  simp only [lsmPut, walAppend] at h ⊢
  split_ifs at h ⊢ with hc
  · exfalso
    obtain ⟨s1, hs1⟩ := rotateMemtable_nonempty
      (s := { s with
          sequence_number := s.sequence_number + 1
          walFile := s.walFile ++ [KVPair.create k v ts s.sequence_number]
          walSeq := s.walSeq + 1
          active := s.active.put k v s.sequence_number })
      (memtablePut_nonempty s.active k v s.sequence_number)
    rw [hs1] at h
    exact Except.noConfusion h
  · rfl

/-- A `delete` that returns `Ok` likewise took the no-rotation branch. -/
theorem lsmDelete_ok {s : LSMState} {k : Bytes} {ts : Nat}
    (h : (lsmDelete s k ts).1 = .ok ()) :
    lsmDelete s k ts = (.ok (),
      { s with
          sequence_number := s.sequence_number + 1
          walFile := s.walFile ++ [KVPair.tombstone k ts s.sequence_number]
          walSeq := s.walSeq + 1
          active := s.active.del k s.sequence_number }) := by
  simp only [lsmDelete, walAppend] at h ⊢
  split_ifs at h ⊢ with hc
  · exfalso
    obtain ⟨s1, hs1⟩ := rotateMemtable_nonempty
      (s := { s with
          sequence_number := s.sequence_number + 1
          walFile := s.walFile ++ [KVPair.tombstone k ts s.sequence_number]
          walSeq := s.walSeq + 1
          active := s.active.del k s.sequence_number })
      (memtableDel_nonempty s.active k s.sequence_number)
    rw [hs1] at h
    exact Except.noConfusion h
  · rfl

theorem flushMemtableToL0_wal (s : LSMState) (mt : MemTable) :
    (flushMemtableToL0 s mt).2.walFile = s.walFile ∧
      (flushMemtableToL0 s mt).2.walSeq = s.walSeq := by
  simp only [flushMemtableToL0]
  split_ifs with h
  · exact ⟨rfl, rfl⟩
  · cases hres : addAll (builderNew
        (s.config.data_dir ++ "/" ++ Nat.repr s.sequence_number ++ ".sst")
        s.config.compression) mt.data with
    | error e => simp [hres]
    | ok b =>
      cases hfin : finishB b with
      | error e => simp [hres, hfin]
      | ok sst => simp [hres, hfin]

theorem flushImmList_wal {mts : List MemTable} :
    ∀ (s : LSMState), (flushImmList s mts).2.walFile = s.walFile ∧
      (flushImmList s mts).2.walSeq = s.walSeq := by
  induction mts with
  | nil => intro s; exact ⟨rfl, rfl⟩
  | cons mt rest ih =>
    intro s
    rw [flushImmList]
    have hw := flushMemtableToL0_wal s mt
    cases hres : flushMemtableToL0 s mt with
    | mk r s1 =>
      rw [hres] at hw
      cases r with
      | error e => exact hw
      | ok u =>
        obtain ⟨h1, h2⟩ := ih s1
        exact ⟨by rw [h1]; exact hw.1, by rw [h2]; exact hw.2⟩

theorem flushImmutableMemtables_wal (s : LSMState) :
    (flushImmutableMemtables s).2.walFile = s.walFile ∧
      (flushImmutableMemtables s).2.walSeq = s.walSeq := by
  rw [flushImmutableMemtables]
  exact flushImmList_wal _

theorem rotateMemtable_wal (s : LSMState) :
    (rotateMemtable s).2.walFile = s.walFile ∧
      (rotateMemtable s).2.walSeq = s.walSeq := by
  simp only [rotateMemtable]
  split_ifs with h
  · exact flushImmutableMemtables_wal _
  · exact flushImmutableMemtables_wal _

theorem lsmFlush_wal (s : LSMState) :
    (lsmFlush s).2.walFile = s.walFile ∧ (lsmFlush s).2.walSeq = s.walSeq := by
  rw [lsmFlush]
  have hr := rotateMemtable_wal s
  cases hres : rotateMemtable s with
  | mk r s1 =>
    rw [hres] at hr
    cases r with
    | error e => exact hr
    | ok u =>
      have hf := flushImmutableMemtables_wal s1
      exact ⟨by rw [hf.1]; exact hr.1, by rw [hf.2]; exact hr.2⟩

/-! ### WriteAheadLog recovery (`src/crates/storage/src/wal.rs`)

`recover` scans the log bytes from the start: a 4-byte big-endian record
length (`read_u32`), then that many bytes of record.  The JSON codec and
the CRC are third-party (`serde_json`, `crc32fast`) and enter as
parameters: `decodeEntry` stands for `serde_json::from_slice::<WALEntry>`,
`encodeKV` for `serde_json::to_vec` of the payload, `crc32` for
`crc32fast::hash`.  The theorems hold for every choice of codec. -/

/-- `WALEntry`. -/
structure WALEntry where
  crc : Nat
  length : Nat
  data : KVPair
deriving DecidableEq, Repr

/-- Big-endian `u32` read of the first four bytes (`AsyncReadExt::read_u32`). -/
def beU32 (l : List Nat) : Nat :=
  match l with
  | b0 :: b1 :: b2 :: b3 :: _ => b0 * 16777216 + b1 * 65536 + b2 * 256 + b3
  | _ => 0

/-- `WriteAheadLog::recover`: read a length prefix (stopping at end of
file), stop silently at the first record whose declared size runs past
end-of-file, skip records that fail to decode or whose stored CRC does
not match the checksum recomputed over the re-serialized payload, and
collect the surviving payloads in file order. -/
def walRecover (decodeEntry : List Nat → Option WALEntry) (encodeKV : KVPair → List Nat)
    (crc32 : List Nat → Nat) (file : List Nat) : List KVPair :=
  if file.length < 4 then []
  else if beU32 (file.take 4) > (file.drop 4).length then []
  else
    (match decodeEntry ((file.drop 4).take (beU32 (file.take 4))) with
     | some e => if e.crc = crc32 (encodeKV e.data) then [e.data] else []
     | none => []) ++
      walRecover decodeEntry encodeKV crc32 ((file.drop 4).drop (beU32 (file.take 4)))
termination_by file.length
decreasing_by
  simp only [List.length_drop]
  omega

/-- The structurally well-formed prefix of a WAL file: the payload bytes
of each length-prefixed record, in file order, up to but excluding the
first structurally truncated record (a length header whose declared size
runs past end-of-file). -/
def walFrames (file : List Nat) : List (List Nat) :=
  if file.length < 4 then []
  else if beU32 (file.take 4) > (file.drop 4).length then []
  else
    (file.drop 4).take (beU32 (file.take 4)) ::
      walFrames ((file.drop 4).drop (beU32 (file.take 4)))
termination_by file.length
decreasing_by
  simp only [List.length_drop]
  omega

/-- The claim-side reading of recovery: keep, in file order, exactly the
well-formed frames that decode and whose stored CRC matches the checksum
recomputed over their payload. -/
def recoverSpec (decodeEntry : List Nat → Option WALEntry) (encodeKV : KVPair → List Nat)
    (crc32 : List Nat → Nat) (file : List Nat) : List KVPair :=
  (walFrames file).filterMap (fun payload =>
    match decodeEntry payload with
    | some e => if e.crc = crc32 (encodeKV e.data) then some e.data else none
    | none => none)

/-! ### Claim theorems -/

/-- C10: for every MemTable reachable from `new()` by any sequence of
`put` and `delete` calls, `size()` equals exactly the sum over the
current entries of `key.len() + value_length + 16` (`value_length` 0 for
a tombstone); the identity is maintained incrementally by every `put`
and `delete`, including overwrites in either direction. -/
theorem C10_memtable_size_invariant {m : MemTable} (h : MTReachable m) :
    m.size = mtSum m.data :=
  (mtReachable_invariant h).2

/-- Witness for C10: a concrete memtable reached by a put overwritten by
a tombstone. -/
theorem C10_memtable_size_invariant_witness :
    ((MemTable.create.put [1] [2, 3] 0).del [1] 1).size
      = mtSum ((MemTable.create.put [1] [2, 3] 0).del [1] 1).data :=
  C10_memtable_size_invariant
    (MTReachable.del _ _ _ (MTReachable.put _ _ _ _ MTReachable.new))

/-- C6: `WriteAheadLog::recover` returns, in file order, exactly those
records of the log whose stored CRC matches the checksum recomputed over
their payload, up to but excluding the first structurally truncated
record (a length header whose declared size runs past end-of-file);
CRC-mismatched or undecodable records are skipped without aborting the
recovery of later well-formed records, and structural truncation ends
recovery without an error — for every JSON codec and checksum function. -/
theorem C6_wal_recover_wellformed_prefix (d : List Nat → Option WALEntry)
    (e : KVPair → List Nat) (c : List Nat → Nat) (file : List Nat) :
    walRecover d e c file = recoverSpec d e c file := by
  suffices H : ∀ (n : Nat) (g : List Nat), g.length ≤ n →
      walRecover d e c g = recoverSpec d e c g by
    exact H file.length file (Nat.le_refl _)
  intro n
  induction n with
  | zero =>
    intro g hg
    have h4 : g.length < 4 := by omega
    rw [walRecover, if_pos h4, recoverSpec, walFrames, if_pos h4]
    rfl
  | succ k ihk =>
    intro g hg
    by_cases h4 : g.length < 4
    · rw [walRecover, if_pos h4, recoverSpec, walFrames, if_pos h4]
      rfl
    · rw [walRecover, if_neg h4, recoverSpec, walFrames, if_neg h4]
      by_cases htr : beU32 (g.take 4) > (g.drop 4).length
      · rw [if_pos htr, if_pos htr]
        rfl
      · rw [if_neg htr, if_neg htr, List.filterMap_cons]
        have htail : ((g.drop 4).drop (beU32 (g.take 4))).length ≤ k := by
          simp only [List.length_drop]
          omega
        have ih := ihk _ htail
        rw [recoverSpec] at ih
        cases hdec : d ((g.drop 4).take (beU32 (g.take 4))) with
        | none => simpa [hdec] using ih
        | some entry =>
          by_cases hcrc : entry.crc = c (e entry.data)
          · simpa [hdec, hcrc] using ih
          · simpa [hdec, hcrc] using ih

theorem lsmPut_ok_snd {s : LSMState} {k v : Bytes} {ts : Nat}
    (h : (lsmPut s k v ts).1 = .ok ()) :
    (lsmPut s k v ts).2 =
      { s with
          sequence_number := s.sequence_number + 1
          walFile := s.walFile ++ [KVPair.create k v ts s.sequence_number]
          walSeq := s.walSeq + 1
          active := s.active.put k v s.sequence_number } := by
  rw [lsmPut_ok h]

theorem lsmDelete_ok_snd {s : LSMState} {k : Bytes} {ts : Nat}
    (h : (lsmDelete s k ts).1 = .ok ()) :
    (lsmDelete s k ts).2 =
      { s with
          sequence_number := s.sequence_number + 1
          walFile := s.walFile ++ [KVPair.tombstone k ts s.sequence_number]
          walSeq := s.walSeq + 1
          active := s.active.del k s.sequence_number } := by
  rw [lsmDelete_ok h]

theorem lsmGet_active_some {s : LSMState} {k : Bytes} {r : Option Bytes}
    (h : s.active.get k = some r) : lsmGet s k = (.ok r, s) := by
  rw [lsmGet, h]

theorem memtable_del_get (m : MemTable) (k : Bytes) (sq : Nat) :
    (m.del k sq).get k = some none := by
  show (alLookup (btInsert m.data k ⟨none, sq⟩) k).map (fun e => e.value) = some none
  rw [alLookup_btInsert_self]
  rfl

/-- C2: a `put(k,v)` followed by `delete(k)` (both succeeding, with no
later writes to k) makes `get(k)` return `Ok(None)`; and a tombstone
reported by any tier short-circuits the search — the active memtable, an
immutable memtable reached newest-first, or the SSTable levels — so the
lookup never falls through to an older tier, whatever values those older
tiers hold. -/
theorem C2_tombstone_shadows :
    (∀ (s : LSMState) (k v : Bytes) (ts ts2 : Nat),
        (lsmPut s k v ts).1 = .ok () →
        (lsmDelete (lsmPut s k v ts).2 k ts2).1 = .ok () →
        (lsmGet (lsmDelete (lsmPut s k v ts).2 k ts2).2 k).1 = .ok none) ∧
    (∀ (s : LSMState) (k : Bytes), s.active.get k = some none →
        (lsmGet s k).1 = .ok none) ∧
    (∀ (s : LSMState) (k : Bytes), s.active.get k = none →
        immLookup s.immutable k = some none → (lsmGet s k).1 = .ok none) ∧
    (∀ (s : LSMState) (k : Bytes), s.active.get k = none →
        immLookup s.immutable k = none →
        (levelsLookup k s.levels s.cache).1 = .ok (some none) →
        (lsmGet s k).1 = .ok none) := by
  refine ⟨?_, ?_, ?_, ?_⟩
  · intro s k v ts ts2 hput hdel
    rw [lsmPut_ok_snd hput] at hdel ⊢
    rw [lsmDelete_ok_snd hdel]
    rw [lsmGet_active_some (memtable_del_get _ k _)]
  · intro s k h
    rw [lsmGet_active_some h]
  · intro s k h1 h2
    rw [lsmGet, h1, h2]
  · intro s k h1 h2 h3
    cases hl : levelsLookup k s.levels s.cache with
    | mk r c1 =>
      rw [hl] at h3
      rw [lsmGet, h1, h2, hl]
      cases r with
      | error e => exact absurd h3 (by simp)
      | ok o =>
        simp only at h3
        cases h3
        rfl

/-! ### Concrete states used by witnesses and concrete-evaluation theorems -/

/-- A config with the default 64 MiB memtable threshold. -/
def cfgBig : StorageConfig :=
  { data_dir := "./data", wal_dir := "./wal", memtable_size_mb := 64,
    l0_compaction_trigger := 4, max_levels := 7, target_file_size_mb := 64,
    compression := .lz4, cache_size_mb := 256 }

/-- A config with `memtable_size_mb = 0`: every write triggers rotation. -/
def cfgZero : StorageConfig :=
  { data_dir := "./data", wal_dir := "./wal", memtable_size_mb := 0,
    l0_compaction_trigger := 4, max_levels := 7, target_file_size_mb := 64,
    compression := .lz4, cache_size_mb := 256 }

/-- A freshly opened engine (empty WAL) under `cfgBig`. -/
def s0Big : LSMState := lsmOpen cfgBig []

/-- A freshly opened engine (empty WAL) under `cfgZero`. -/
def s0Zero : LSMState := lsmOpen cfgZero []

/-- A state whose active memtable holds a tombstone for `[5]`. -/
def sTomb : LSMState := (lsmDelete s0Big [5] 0).2

/-- A state whose immutable queue holds a memtable with a tombstone for `[7]`. -/
def sImm : LSMState := { s0Big with immutable := [MemTable.create.del [7] 0] }

/-- An opened SSTable whose only indexed block is 3 nonempty bytes. -/
def sstT : SSTable :=
  { file_path := "t", fileBytes := [1, 2, 3],
    footer := { index_offset := 0, index_size := 0, bloom_filter_offset := 0,
                bloom_filter_size := 0, compression := .none, num_entries := 1, crc := 0 },
    index := [([9], { key := [9], offset := 0, size := 3 })] }

/-- A state whose only tier for key `[9]` is the SSTable `sstT`. -/
def sLvl : LSMState := { s0Big with levels := [[sstT]] }

/-- Witness for C2 at concrete states: a put-then-delete pair on a fresh
engine; a tombstone in the active memtable; a tombstone in an immutable
memtable; and an SSTable tier reporting a tombstone. -/
theorem C2_tombstone_shadows_witness :
    (lsmGet (lsmDelete (lsmPut s0Big [1] [2] 0).2 [1] 1).2 [1]).1 = .ok none ∧
    (lsmGet sTomb [5]).1 = .ok none ∧
    (lsmGet sImm [7]).1 = .ok none ∧
    (lsmGet sLvl [9]).1 = .ok none := by
  refine ⟨C2_tombstone_shadows.1 s0Big [1] [2] 0 1 rfl rfl,
    C2_tombstone_shadows.2.1 sTomb [5] rfl,
    C2_tombstone_shadows.2.2.1 sImm [7] rfl rfl,
    C2_tombstone_shadows.2.2.2 sLvl [9] rfl rfl rfl⟩

/-- C1 (code evaluated at the failing scenario): on a fresh engine the
`put` succeeds and `get` sees the value in the active memtable, but the
spec's "after an intervening rotation/flush" half is unreachable —
`flush()` fails because the SSTable builder cannot serialize the block
(`serde_json` rejects the byte-vector keys), so the pair can never move
into a Level-0 SSTable. -/
theorem C1_put_get_then_flush_fails :
    (lsmPut s0Big [97] [49] 0).1 = .ok () ∧
    (lsmGet (lsmPut s0Big [97] [49] 0).2 [97]).1 = .ok (some [49]) ∧
    (lsmFlush (lsmPut s0Big [97] [49] 0).2).1 = .error (.serde "key must be a string") :=
  ⟨rfl, rfl, rfl⟩

/-- C3 (code evaluated): `SSTableBuilder::finish` never succeeds — with a
pending block it fails serializing the byte-keyed block map, and with no
entries the JSON-encoded footer (at least 112 bytes) can never fit the
fixed 48-byte `FOOTER_SIZE`. -/
theorem C3_finish_never_succeeds (b : SSTableBuilder) :
    finishB b = .error (.serde "key must be a string") ∨
      finishB b = .error (.internal "Footer too large") :=
  finishB_error b

/-- C5 (code evaluated): `LSMTree::flush` never calls
`WriteAheadLog::truncate` — the WAL file and its sequence counter are
unchanged by every flush, successful or not; and a successful flush from
a state with a nonempty WAL exists, after which reopening would replay
the WAL. -/
theorem C5_flush_never_truncates_wal :
    (∀ s : LSMState,
        (lsmFlush s).2.walFile = s.walFile ∧ (lsmFlush s).2.walSeq = s.walSeq) ∧
    (lsmFlush (lsmPut s0Zero [97] [49] 0).2).1 = .ok () ∧
    (lsmPut s0Zero [97] [49] 0).2.walFile = [KVPair.create [97] [49] 0 0] :=
  ⟨fun s => lsmFlush_wal s, rfl, rfl⟩

/-- C7 (code evaluated at the failing input): with `memtable_size_mb = 0`
a `put` triggers rotation, the flush of the rotated memtable fails, and
the caller sees `Err` — yet the record was already appended to the WAL
(it is durable and recovery would replay it), while the rotated memtable
holding it was taken from the queue and dropped, so neither the active
memtable nor the immutable queue still holds the key. -/
theorem C7_failed_put_leaves_wal_record :
    (lsmPut s0Zero [97] [49] 0).1 = .error (.serde "key must be a string") ∧
    (lsmPut s0Zero [97] [49] 0).2.walFile = [KVPair.create [97] [49] 0 0] ∧
    (lsmPut s0Zero [97] [49] 0).2.active.get [97] = none ∧
    (lsmPut s0Zero [97] [49] 0).2.immutable = [] :=
  ⟨rfl, rfl, rfl, rfl⟩

/-- C4 (code evaluated): on a cache miss `SSTable::get` never parses the
fetched block — for every key the predecessor search locates, any
nonempty decompressed block produces `Ok(Some(None))` (a tombstone
report), never the key's value. -/
theorem C4_sstable_get_never_parses_block
    (t : SSTable) (k : Bytes) (c : LRUCache) (entry : IndexEntry) (dec : List Nat)
    (hseek : indexSeek t.index k = some entry)
    (hmiss : hmLookup c.data (t.file_path ++ ":" ++ Nat.repr entry.offset) = none)
    (hlen : ¬ t.fileBytes.length < entry.offset + entry.size)
    (hdec : decompress ((t.fileBytes.drop entry.offset).take entry.size)
        t.footer.compression = .ok dec)
    (hne : dec.isEmpty = false) :
    (sstGet t k c).1 = .ok (some none) := by
  have hc : cacheGet c (t.file_path ++ ":" ++ Nat.repr entry.offset) = (none, c) := by
    rw [cacheGet, hmiss]
  simp only [sstGet, hseek, hc, if_neg hlen, hdec, hne]
  simp

/-- Witness for C4: an SSTable whose located block is nonempty, queried
with an empty cache, answers `Ok(Some(None))`. -/
theorem C4_sstable_get_never_parses_block_witness :
    (sstGet sstT [9] (cacheNew 10)).1 = .ok (some none) :=
  C4_sstable_get_never_parses_block sstT [9] (cacheNew 10)
    { key := [9], offset := 0, size := 3 } [1, 2, 3] rfl rfl (by decide) rfl rfl

theorem evictOnce_capacity (c : LRUCache) (lru : String) (rest : List String) :
    (evictOnce c lru rest).capacity = c.capacity := by
  rw [evictOnce]
  cases h : hmLookup c.data lru with
  | none => rfl
  | some p => obtain ⟨a, b⟩ := p; rfl

theorem evictLoopAux_capacity (es : Nat) :
    ∀ (order : List String) (c : LRUCache),
      (evictLoopAux order c es).capacity = c.capacity := by
  intro order
  induction order with
  | nil => intro c; rfl
  | cons lru rest ih =>
    intro c
    rw [evictLoopAux]
    split_ifs with h
    · rw [ih, evictOnce_capacity]
    · rfl

theorem evictOnce_lookup_none (c : LRUCache) (lru : String) (rest : List String) :
    hmLookup (evictOnce c lru rest).data lru = none := by
  rw [evictOnce]
  cases h : hmLookup c.data lru with
  | none => exact h
  | some p =>
    obtain ⟨a, b⟩ := p
    simp only
    exact hmLookup_hmRemove_self _ _

theorem evict_then_insert (c1 : LRUCache) (k : String) (v : Bytes)
    (hnd1 : c1.access_order.Nodup) (hk1 : hmLookup c1.data k = none) :
    ∃ n,
      (evictLoopAux c1.access_order c1 (k.length + v.length)).access_order
        = c1.access_order.drop n ∧
      hmLookup ((evictLoopAux c1.access_order c1 (k.length + v.length)).data
        ++ [(k, v, k.length + v.length)]) k = some (v, k.length + v.length) ∧
      ∀ q, q ∈ c1.access_order.drop n → q ≠ k →
        hmLookup ((evictLoopAux c1.access_order c1 (k.length + v.length)).data
          ++ [(k, v, k.length + v.length)]) q = hmLookup c1.data q := by
  obtain ⟨n, hord, _, hpres⟩ := evictLoopAux_spec (k.length + v.length)
    c1.access_order c1 rfl hnd1
  refine ⟨n, hord, ?_, ?_⟩
  · exact hmLookup_append_self _ _ (evictLoopAux_lookup_none _ _ _ _ hk1)
  · intro q hq hqk
    rw [hmLookup_append_ne _ _ hqk, hpres q hq]

/-- C8 counterexample: a `put` whose cost (14) exceeds the capacity (10)
is rejected silently, but the cache is NOT left unchanged — the eviction
loop runs first and evicts the resident entry. -/
theorem C8_oversized_put_evicts_counterexample :
    (cacheGet (cachePut (cacheNew 10) "aaaa" [0, 0, 0, 0]) "aaaa").1 = some [0, 0, 0, 0] ∧
    (cacheGet (cachePut (cachePut (cacheNew 10) "aaaa" [0, 0, 0, 0])
        "kkkkkk" [0, 0, 0, 0, 0, 0, 0, 0]) "aaaa").1 = none ∧
    hmLookup (cachePut (cachePut (cacheNew 10) "aaaa" [0, 0, 0, 0])
        "kkkkkk" [0, 0, 0, 0, 0, 0, 0, 0]).data "kkkkkk" = none :=
  ⟨rfl, rfl, rfl⟩

/-- C8 amended: an oversized `put` (cost above capacity) silently rejects
the new entry but still runs the eviction loop: the key itself is never
cached, and the least-recently-used resident entry IS evicted (front of
the recency order); when the cost fits the capacity, only
least-recently-used entries are evicted, one at a time from the front of
the recency order, until the new entry fits, and surviving entries keep
their values. -/
theorem C8_cache_put_amended :
    (∀ (c : LRUCache) (k : String) (v : Bytes),
        c.capacity < k.length + v.length →
        hmLookup (cachePut c k v).data k = none) ∧
    (∀ (c : LRUCache) (k lru : String) (v : Bytes) (rest : List String),
        c.capacity < k.length + v.length →
        hmLookup c.data k = none →
        c.access_order = lru :: rest →
        c.current_size + (k.length + v.length) < wrapBound →
        hmLookup (cachePut c k v).data lru = none) ∧
    (∀ (c : LRUCache) (k : String) (v : Bytes),
        WFCache c →
        k.length + v.length ≤ c.capacity →
        ∃ n,
          (cachePut c k v).access_order = (c.access_order.erase k).drop n ++ [k] ∧
          hmLookup (cachePut c k v).data k = some (v, k.length + v.length) ∧
          ∀ q, q ∈ (c.access_order.erase k).drop n → q ≠ k →
            hmLookup (cachePut c k v).data q = hmLookup c.data q) := by
  refine ⟨?_, ?_, ?_⟩
  · intro c k v hcap
    cases hl : hmLookup c.data k with
    | none =>
      simp only [cachePut, hl]
      rw [if_neg (by rw [evictLoopAux_capacity]; omega)]
      exact evictLoopAux_lookup_none _ _ _ _ hl
    | some p =>
      obtain ⟨ov, osz⟩ := p
      simp only [cachePut, hl]
      rw [if_neg (by rw [evictLoopAux_capacity]; show ¬ k.length + v.length ≤ c.capacity; omega)]
      exact evictLoopAux_lookup_none _ _ _ _ (hmLookup_hmRemove_self _ _)
  · intro c k lru v rest hcap hknone hord hbound
    simp only [cachePut, hknone]
    rw [hord]
    rw [if_neg (by rw [evictLoopAux_capacity]; omega)]
    have hw : wadd c.current_size (k.length + v.length)
        = c.current_size + (k.length + v.length) := by
      rw [wadd, Nat.mod_eq_of_lt hbound]
    rw [evictLoopAux]
    rw [if_pos (by rw [hw]; omega)]
    exact evictLoopAux_lookup_none _ _ _ _ (evictOnce_lookup_none c lru rest)
  · intro c k v hwf hfit
    obtain ⟨hnd, hsome, _⟩ := hwf
    cases hl : hmLookup c.data k with
    | none =>
      have hkno : k ∉ c.access_order := by
        intro hmem
        have := hsome k hmem
        rw [hl] at this
        simp at this
      have her : c.access_order.erase k = c.access_order := List.erase_of_not_mem hkno
      obtain ⟨n, hord, hself, hpres⟩ := evict_then_insert c k v hnd hl
      refine ⟨n, ?_, ?_, ?_⟩
      · simp only [cachePut, hl]
        rw [if_pos (by rw [evictLoopAux_capacity]; exact hfit)]
        rw [her, hord]
      · simp only [cachePut, hl]
        rw [if_pos (by rw [evictLoopAux_capacity]; exact hfit)]
        exact hself
      · intro q hq hqk
        rw [her] at hq
        simp only [cachePut, hl]
        rw [if_pos (by rw [evictLoopAux_capacity]; exact hfit)]
        exact hpres q hq hqk
    | some p =>
      obtain ⟨ov, osz⟩ := p
      have hnd1 : (c.access_order.erase k).Nodup := hnd.erase k
      have hk1 : hmLookup (hmRemove c.data k) k = none := hmLookup_hmRemove_self _ _
      obtain ⟨n, hord, hself, hpres⟩ := evict_then_insert
        { c with data := hmRemove c.data k
                 current_size := wsub c.current_size (k.length + osz)
                 access_order := c.access_order.erase k } k v hnd1 hk1
      refine ⟨n, ?_, ?_, ?_⟩
      · simp only [cachePut, hl]
        rw [if_pos (by rw [evictLoopAux_capacity]; exact hfit)]
        rw [hord]
      · simp only [cachePut, hl]
        rw [if_pos (by rw [evictLoopAux_capacity]; exact hfit)]
        exact hself
      · intro q hq hqk
        simp only [cachePut, hl]
        rw [if_pos (by rw [evictLoopAux_capacity]; exact hfit)]
        rw [hpres q hq hqk]
        exact hmLookup_hmRemove_ne _ hqk

/-- Witness for C8 at concrete caches: an oversized put into a capacity-5
cache; an oversized put evicting the resident LRU entry; and a fitting
put into a well-formed cache. -/
theorem C8_cache_put_amended_witness :
    hmLookup (cachePut (cacheNew 5) "abc" [1, 2, 3]).data "abc" = none ∧
    hmLookup (cachePut (cachePut (cacheNew 10) "aaaa" [0, 0, 0, 0])
        "kkkkkk" [0, 0, 0, 0, 0, 0, 0, 0]).data "aaaa" = none ∧
    (∃ n,
      (cachePut (cachePut (cacheNew 10) "aaaa" [0, 0, 0, 0]) "bb" [1, 2]).access_order
        = (((cachePut (cacheNew 10) "aaaa" [0, 0, 0, 0]).access_order.erase "bb").drop n)
          ++ ["bb"] ∧
      hmLookup (cachePut (cachePut (cacheNew 10) "aaaa" [0, 0, 0, 0]) "bb" [1, 2]).data
        "bb" = some ([1, 2], "bb".length + 2) ∧
      ∀ q, q ∈ ((cachePut (cacheNew 10) "aaaa" [0, 0, 0, 0]).access_order.erase "bb").drop n →
        q ≠ "bb" →
        hmLookup (cachePut (cachePut (cacheNew 10) "aaaa" [0, 0, 0, 0]) "bb" [1, 2]).data q
          = hmLookup (cachePut (cacheNew 10) "aaaa" [0, 0, 0, 0]).data q) := by
  refine ⟨C8_cache_put_amended.1 (cacheNew 5) "abc" [1, 2, 3] (by decide),
    C8_cache_put_amended.2.1 (cachePut (cacheNew 10) "aaaa" [0, 0, 0, 0])
      "kkkkkk" "aaaa" [0, 0, 0, 0, 0, 0, 0, 0] [] (by decide) rfl rfl (by decide),
    ?_⟩
  have h := C8_cache_put_amended.2.2 (cachePut (cacheNew 10) "aaaa" [0, 0, 0, 0])
    "bb" [1, 2] (by decide) (by decide)
  exact h

/-- C9 counterexample: a highly repetitive input one byte over 1 MiB
compresses fine under `Zstd` but fails the round-trip — `decompress`
passes the hard-coded `1024 * 1024` byte capacity from the source, and
the decompressed output exceeds it. -/
theorem C9_zstd_large_roundtrip_counterexample :
    ∃ comp, compress (List.replicate 1048577 0) .zstd = .ok comp ∧
      decompress comp .zstd =
        .error (.compression "ZSTD decompression failed: capacity exceeded") := by
  refine ⟨zstdCompress (List.replicate 1048577 0), rfl, ?_⟩
  show zstdDecompressCap (1024 * 1024) (zstdCompress (List.replicate 1048577 0)) = _
  rw [zstdCompress, zstdDecompressCap, rleDecode_rleEncode]
  show (if (List.replicate 1048577 0).length > 1024 * 1024 then
      (Except.error (.compression "ZSTD decompression failed: capacity exceeded") :
        Except StorageError (List Nat))
    else .ok (List.replicate 1048577 0)) = _
  rw [List.length_replicate, if_pos (by norm_num)]

/-- C9 amended: `decompress (compress data kind) = Ok(data)` for `None`
on every input, for `LZ4` on every input shorter than 4 GiB (the 32-bit
size prefix), and for `Zstd` only when the input is at most 1 MiB (the
decompression capacity hard-coded in the source); and for highly
repetitive inputs (a run of at least 8 equal bytes) the compressed size
does not exceed the original under both non-`None` kinds. -/
theorem C9_compression_roundtrip_amended :
    (∀ d : List Nat, ∃ c1, compress d .none = .ok c1 ∧ decompress c1 .none = .ok d) ∧
    (∀ d : List Nat, d.length < 4294967296 →
        ∃ c1, compress d .lz4 = .ok c1 ∧ decompress c1 .lz4 = .ok d) ∧
    (∀ d : List Nat, d.length ≤ 1048576 →
        ∃ c1, compress d .zstd = .ok c1 ∧ decompress c1 .zstd = .ok d) ∧
    (∀ (n b : Nat), 8 ≤ n →
        (lz4Compress (List.replicate n b)).length ≤ n ∧
        (zstdCompress (List.replicate n b)).length ≤ n) := by
  refine ⟨?_, ?_, ?_, ?_⟩
  · intro d
    exact ⟨d, rfl, rfl⟩
  · intro d h
    exact ⟨lz4Compress d, rfl, lz4Decompress_lz4Compress h⟩
  · intro d h
    exact ⟨zstdCompress d, rfl, zstdDecompress_zstdCompress h⟩
  · intro n b h
    exact ⟨lz4Compress_replicate_le b h, zstdCompress_replicate_le b (by omega)⟩

/-- Witness for C9 on concrete inputs: round-trips of `[7, 7, 7]` under
all three kinds, and the size bound on a run of eight bytes. -/
theorem C9_compression_roundtrip_amended_witness :
    (∃ c1, compress [7, 7, 7] .none = .ok c1 ∧ decompress c1 .none = .ok [7, 7, 7]) ∧
    (∃ c1, compress [7, 7, 7] .lz4 = .ok c1 ∧ decompress c1 .lz4 = .ok [7, 7, 7]) ∧
    (∃ c1, compress [7, 7, 7] .zstd = .ok c1 ∧ decompress c1 .zstd = .ok [7, 7, 7]) ∧
    ((lz4Compress (List.replicate 8 1)).length ≤ 8 ∧
      (zstdCompress (List.replicate 8 1)).length ≤ 8) :=
  ⟨C9_compression_roundtrip_amended.1 [7, 7, 7],
   C9_compression_roundtrip_amended.2.1 [7, 7, 7] (by decide),
   C9_compression_roundtrip_amended.2.2.1 [7, 7, 7] (by decide),
   C9_compression_roundtrip_amended.2.2.2 8 1 (by decide)⟩

end DistDB
